import Mathlib

/-!
# Verification of the flowpy information-flow checker

Shallow embedding of the label-propagation core of the flowpy repository
(`flowpy/state.py`, `flowpy/evaluators.py`, `flowpy/errors.py`) together with
proofs about the embedded definitions.

Conventions:
* Python `set` values become `Finset String`; insertion-ordered dicts become
  association lists (`List (String × Finset String)`) whose key uniqueness is
  maintained by the same operations the source uses.
* The compiled rule regex `"^" ++ pattern.replace("*", ".*") ++ "$"` is
  modelled by a glob matcher over the pattern's characters (the pattern can
  only contain `[a-zA-Z0-9_*]`, so `*` ↦ `.*` is the only regex construct;
  variable names contain no newline, so `.` is "any character").
* Fallible Python code (AttributeError / IndexError / RecursionError) is
  modelled with `Except`.
-/

set_option linter.unusedVariables false

/-- A `Decidable` instance for equality of string label sets that the kernel
can evaluate (mutual inclusion), used by `decide` on concrete programs. -/
instance (priority := 2000) finsetStringDecEq : DecidableEq (Finset String) := fun s t =>
  decidable_of_iff (s ⊆ t ∧ t ⊆ s)
    ⟨fun h => Finset.Subset.antisymm h.1 h.2, fun h => by constructor <;> simp [h]⟩

/-- Python `str.split(sep)` for a single-character separator, accumulator form:
split at every occurrence of `sep`, keeping empty pieces. -/
def pySplitGo (sep : Char) : List Char → List Char → List (List Char)
  | [], cur => [cur.reverse]
  | c :: cs, cur =>
    if c = sep then cur.reverse :: pySplitGo sep cs [] else pySplitGo sep cs (c :: cur)

/-- Python `str.split(sep)` for a single-character separator. -/
def pySplit (s : String) (sep : Char) : List String :=
  (pySplitGo sep s.data []).map String.mk

/-- Python `str.strip()`: drop whitespace from both ends. -/
def pyStrip (s : String) : String :=
  String.mk (((s.data.dropWhile Char.isWhitespace).reverse.dropWhile Char.isWhitespace).reverse)

/-- One character class test for `re.findall(r"[a-zA-Z0-9_\*]+", first)`. -/
def isWordChar (c : Char) : Bool :=
  ('a' ≤ c && c ≤ 'z') || ('A' ≤ c && c ≤ 'Z') || ('0' ≤ c && c ≤ '9') || c = '_' || c = '*'

/-- Glob matching of a rule pattern (chars drawn from `[a-zA-Z0-9_*]`) against a
full variable name: the model of `re.search("^" ++ pat.replace("*",".*") ++ "$", v)`.
`*` matches any (possibly empty) sequence of characters. -/
def globMatch : List Char → List Char → Bool
  | [], s => s.isEmpty
  | '*' :: ps, s => (s.tails).any (fun suf => globMatch ps suf)
  | p :: ps, [] => false
  | p :: ps, c :: s => p == c && globMatch ps s

/-- `Rule.applies_to`: does the compiled pattern regex match the variable name? -/
def appliesTo (pat v : String) : Bool :=
  globMatch pat.data v.data

/-- The rule dict `State.__rules`: insertion-ordered mapping pattern ↦ label set.
A rule with an empty label set is a clearing rule. -/
abbrev RuleTable := List (String × Finset String)

/-- `State.get_labels` inner loop: iterate the rules, short-circuiting to `∅`
at the first matching clearing rule, otherwise accumulating the union. -/
def getLabelsGo (v : String) : RuleTable → Finset String → Finset String
  | [], acc => acc
  | (p, ls) :: rs, acc =>
    if appliesTo p v then
      if ls = ∅ then ∅ else getLabelsGo v rs (acc ∪ ls)
    else getLabelsGo v rs acc

/-- `State.get_labels(variable)`: all labels of rules applying to `variable`,
except that a matching clearing rule forces the empty set. -/
def get_labels (t : RuleTable) (v : String) : Finset String :=
  getLabelsGo v t ∅

/-- Does some rule of the table whose pattern matches `v` have an empty
(label-clearing) label set? -/
def HasClearing (t : RuleTable) (v : String) : Prop :=
  ∃ e ∈ t, appliesTo e.1 v = true ∧ e.2 = ∅

instance (t : RuleTable) (v : String) : Decidable (HasClearing t v) := by
  unfold HasClearing; infer_instance

/-- The union of the label sets of all rules whose pattern matches `v`. -/
def matchingUnion : RuleTable → String → Finset String
  | [], _ => ∅
  | e :: t, v => if appliesTo e.1 v then e.2 ∪ matchingUnion t v else matchingUnion t v

/-- First value stored under pattern `p` (Python dict read `rules[p]`). -/
def lookupRule : RuleTable → String → Option (Finset String)
  | [], _ => none
  | (q, m) :: t, p => if q = p then some m else lookupRule t p

/-- `regex in self.__rules`. -/
def containsRule (t : RuleTable) (p : String) : Bool :=
  t.any (fun e => e.1 = p)

/-- Python dict write `rules[p] = ls`: replace the value at an existing key in
place (keeping its position), else append a new entry. -/
def setRule : RuleTable → String → Finset String → RuleTable
  | [], p, ls => [(p, ls)]
  | (q, m) :: t, p, ls => if q = p then (p, ls) :: t else (q, m) :: setRule t p ls

/-- `rules[p].add(ls)`: union labels into the existing entry for `p`. -/
def addToRule : RuleTable → String → Finset String → RuleTable
  | [], _, _ => []
  | (q, m) :: t, p, ls => if q = p then (q, m ∪ ls) :: t else (q, m) :: addToRule t p ls

/-- The per-clause update at the end of `State.add_rules`, after the clause has
been split into its pattern and its stripped, non-empty label tokens:
remove `"()"` tokens; if nothing is left the clause becomes a clearing rule
(replacing any stored rule outright); otherwise the labels are unioned into an
existing rule or a new rule is appended. An empty token list skips the clause. -/
def declRule (t : RuleTable) (regex : String) (labels : List String) : RuleTable :=
  if labels = [] then t
  else if labels.filter (fun x => x ≠ "()") = [] then setRule t regex ∅
  else if containsRule t regex then
    addToRule t regex (labels.filter (fun x => x ≠ "()")).toFinset
  else t ++ [(regex, (labels.filter (fun x => x ≠ "()")).toFinset)]

/-- The first maximal run of `[a-zA-Z0-9_*]` characters in a string:
`re.findall(r"[a-zA-Z0-9_\*]+", first)[0]`, `none` when the findall is empty
(the Python code then hits an IndexError and skips the clause). -/
def firstWordRun (s : String) : Option String :=
  go s.data
where
  go : List Char → Option String
  | [] => none
  | c :: cs => if isWordChar c then some (String.mk (c :: cs.takeWhile isWordChar)) else go cs

/-- Split one rule clause into pattern and label tokens. `none` models the
`ValueError` (colon count ≠ 1) and `IndexError` (no pattern characters) paths,
which `State.add_rules` catches and skips. -/
def parseClause (clause : String) : Option (String × List String) :=
  match pySplit clause ':' with
  | [first, second] =>
    match firstWordRun first with
    | some regex =>
      some (regex, ((pySplit second ',').map pyStrip).filter (fun x => x ≠ ""))
    | none => none
  | _ => none

/-- Process one `.`-separated clause of an annotation comment. -/
def applyClause (t : RuleTable) (clause : String) : RuleTable :=
  match parseClause clause with
  | none => t
  | some (regex, labels) => declRule t regex labels

/-- `State.add_rules(comment)`: split the stripped comment on `.`, drop empty
clauses and process the rest in order, skipping malformed clauses. -/
def add_rules (t : RuleTable) (comment : String) : RuleTable :=
  ((pySplit (pyStrip comment) '.').filter (fun c => c ≠ "")).foldl applyClause t

/-- `State.combine` on the rule dicts: copy entries missing from the
destination (sharing the rule), union label sets for entries present. -/
def combineRules (dst src : RuleTable) : RuleTable :=
  src.foldl (fun d e => if containsRule d e.1 then addToRule d e.1 e.2 else d ++ [e]) dst

/-! ## The evaluator (`flowpy/evaluators.py`)

The AST mirrors the `ast` node shapes the evaluator dispatches on, each node
carrying its line number. `Attribute` and `Return` are node kinds the
dispatcher sends to `UnimplementedEvaluator`. -/

/-- `ast.Load` / `ast.Store` expression contexts. -/
inductive Ctx where
  | Load : Ctx
  | Store : Ctx
deriving DecidableEq

/-- The subject-language AST (the `ast` node kinds the evaluator knows about,
plus `Attribute` and `Return` as representative unimplemented kinds). -/
inductive Ast where
  | Module (body : List Ast) : Ast
  | FunctionDef (name : String) (body : List Ast) (lineno : Nat) : Ast
  | If (test : Ast) (body orelse : List Ast) (lineno : Nat) : Ast
  | While (test : Ast) (body : List Ast) (lineno : Nat) : Ast
  | For (target iter : Ast) (body : List Ast) (lineno : Nat) : Ast
  | Assign (targets : List Ast) (value : Ast) (lineno : Nat) : Ast
  | Expr (value : Ast) (lineno : Nat) : Ast
  | Call (func : Ast) (args : List Ast) (lineno : Nat) : Ast
  | Compare (left : Ast) (comparators : List Ast) (lineno : Nat) : Ast
  | IfExp (test body orelse : Ast) (lineno : Nat) : Ast
  | Name (id : String) (ctx : Ctx) (lineno : Nat) : Ast
  | Tuple (elts : List Ast) (ctx : Ctx) (lineno : Nat) : Ast
  | Constant (lineno : Nat) : Ast
  | Pass (lineno : Nat) : Ast
  | Attribute (value : Ast) (attr : String) (ctx : Ctx) (lineno : Nat) : Ast
  | Return (lineno : Nat) : Ast

/-- The two `FlowError` kinds (`ImplicitFlowError` / `ExplicitFlowError`). -/
inductive ErrKind where
  | implicit : ErrKind
  | explicit : ErrKind
deriving DecidableEq

/-- Snapshot of the `State` object a `FlowError` holds at the moment the error
is recorded (rules, PC and used names; the warnings list is the sink itself).
The recording state is never mutated after the record point in any execution
the claims cover, so the snapshot agrees with what a later reader sees. -/
structure StateSnap where
  rules : RuleTable
  pc : Finset String
  used : Finset String
deriving DecidableEq

/-- A recorded flow violation: kind, line of the offending node, state
snapshot, and the `FlowVar` descriptor of the target (name and label set;
`FlowVar.labels` is `None` — here `none` — only if a caller passes `None`,
which distinguishes "untracked" from the empty set "()"). -/
structure Err where
  kind : ErrKind
  line : Nat
  snap : StateSnap
  target : String
  targetLabels : Option (Finset String)
deriving DecidableEq

/-- The evaluator-side `State`: rule table, PC, used names and the violation
sink. In Python the sink is shared by reference between a state and its
copies; functionally, every evaluator returns its final state and the caller
adopts the returned `warnings` while keeping its own rules/PC/used. -/
structure EvState where
  rules : RuleTable
  pc : Finset String
  used : Finset String
  warnings : List Err
deriving DecidableEq

/-- `State()` -/
def initState : EvState := ⟨[], ∅, ∅, []⟩

/-- `State.get_used(0)`: union of the labels of all used names. -/
def get_used (s : EvState) : Finset String :=
  s.used.biUnion (fun v => get_labels s.rules v)

/-- `State.error`: append to the (shared) violation sink. -/
def EvState.error (s : EvState) (e : Err) : EvState :=
  { s with warnings := s.warnings ++ [e] }

/-- The state snapshot an error records. -/
def EvState.snap (s : EvState) : StateSnap := ⟨s.rules, s.pc, s.used⟩

/-- The per-function states built from annotation comments
(`FlowPy.Source.functions`): rule table and PC of each bound state. -/
abbrev FuncStates := List (String × (RuleTable × Finset String))

/-- `MAIN_SCRIPT` from `flowpy/arguments.py`. -/
def MAIN_SCRIPT : String := "__global_script__"

/-- `State.combine`: union the PC and merge the rule tables. -/
def combine (s : EvState) (f : RuleTable × Finset String) : EvState :=
  { s with pc := s.pc ∪ f.2, rules := combineRules s.rules f.1 }

/-- Exceptions the evaluator can raise: `AttributeError` from `node.func.id`
on a callee that is not a `Name`, `IndexError` from `tgt.elts[i]` in
destructuring assignment, `RecursionError` when the fuel runs out (Python's
recursion limit; no program in this development reaches it). -/
inductive PyErr where
  | attributeError : PyErr
  | indexError : PyErr
  | recursionLimit : PyErr
deriving DecidableEq

/-- `Evaluator.from_AST(...).evaluate()`: one function, fuel-indexed so that
the kernel can evaluate it. Each case is the corresponding evaluator class.
The Python warnings list is shared by reference between a state and its
copies, so wherever the source evaluates a child on `self.state.copy()` the
model passes the parent's value (the copy) and afterwards adopts only the
child's `warnings`; `update_used` / `update_pc` additionally union back the
child's used names / PC as in the source. -/
def eval : Nat → Ast → EvState → FuncStates → Except PyErr EvState
  | 0, _, _, _ => .error .recursionLimit
  | n + 1, node, s, fs =>
    match node with
    | .Module body =>
      -- ModuleEvaluator: combine the global annotation state, then evaluate
      -- each statement on a copy of the state, discarding all but the sink.
      let s0 := match fs.lookup MAIN_SCRIPT with
        | some f => combine s f
        | none => s
      do
        let w ← body.foldlM (fun w nd => do
          let ch ← eval n nd { s0 with warnings := w } fs
          pure ch.warnings) s0.warnings
        pure { s0 with warnings := w }
    | .FunctionDef name body _ =>
      -- FunctionDefEvaluator: combine the function's annotation state, then
      -- evaluate the body like a module body.
      let s0 := match fs.lookup name with
        | some f => combine s f
        | none => s
      do
        let w ← body.foldlM (fun w nd => do
          let ch ← eval n nd { s0 with warnings := w } fs
          pure ch.warnings) s0.warnings
        pure { s0 with warnings := w }
    | .If test body orelse _ =>
      -- IfEvaluator: evaluate the test on a copy, raise the PC by the test's
      -- used labels, then evaluate both branches on copies.
      do
        let ch ← eval n test s fs
        let s1 : EvState := { s with pc := s.pc ∪ get_used ch, warnings := ch.warnings }
        let w ← (body ++ orelse).foldlM (fun w nd => do
          let c2 ← eval n nd { s1 with warnings := w } fs
          pure c2.warnings) s1.warnings
        pure { s1 with warnings := w }
    | .While test body _ =>
      -- WhileEvaluator: same PC elevation, single body list.
      do
        let ch ← eval n test s fs
        let s1 : EvState := { s with pc := s.pc ∪ get_used ch, warnings := ch.warnings }
        let w ← body.foldlM (fun w nd => do
          let c2 ← eval n nd { s1 with warnings := w } fs
          pure c2.warnings) s1.warnings
        pure { s1 with warnings := w }
    | .For _ iter body _ =>
      -- ForEvaluator: the iterated expression plays the role of the test.
      do
        let ch ← eval n iter s fs
        let s1 : EvState := { s with pc := s.pc ∪ get_used ch, warnings := ch.warnings }
        let w ← body.foldlM (fun w nd => do
          let c2 ← eval n nd { s1 with warnings := w } fs
          pure c2.warnings) s1.warnings
        pure { s1 with warnings := w }
    | .Assign targets value _ =>
      -- AssignEvaluator: evaluate the value (elementwise for a sequence
      -- literal), then check each target: a sequence target pairs off with
      -- the element states (IndexError past its arity); a scalar target is
      -- checked against the union of all element states' used names.
      do
        let sw ← match value with
          | .Tuple elts _ _ =>
            elts.foldlM (fun (p : List EvState × List Err) e => do
              let ch ← eval n e { s with warnings := p.2 } fs
              pure (p.1 ++ [ch], ch.warnings)) (([] : List EvState), s.warnings)
          | _ => do
            let ch ← eval n value s fs
            pure ([ch], ch.warnings)
        let states := sw.1
        let w ← targets.foldlM (fun w tgt => do
          match tgt with
          | .Tuple telts _ _ =>
            (List.range states.length).foldlM (fun w i => do
              match telts.get? i with
              | none => (.error .indexError : Except PyErr (List Err))
              | some te => do
                let ch ← eval n te { (states.getD i s) with warnings := w } fs
                pure ch.warnings) w
          | _ => do
            let base := states.foldl (fun acc stc => { acc with used := acc.used ∪ stc.used })
              { s with warnings := w }
            let ch ← eval n tgt base fs
            pure ch.warnings) sw.2
        pure { s with warnings := w }
    | .Expr value _ =>
      -- ExprEvaluator: defer to the wrapped expression (returning its state).
      eval n value s fs
    | .Call func args l =>
      -- CallEvaluator: evaluate the callee on a copy, union its PC back; if
      -- the PC is non-empty record an implicit-flow violation for the call
      -- itself (AttributeError if the callee has no `.id`); then evaluate
      -- each argument, unioning its used names back.
      do
        let ch ← eval n func s fs
        let s1 : EvState := { s with pc := s.pc ∪ ch.pc, warnings := ch.warnings }
        let s2 ← if s1.pc = ∅ then pure s1
          else match func with
            | .Name fid _ _ =>
              pure (s1.error ⟨.implicit, l, s1.snap, fid, some (get_labels s1.rules fid)⟩)
            | _ => (.error .attributeError : Except PyErr EvState)
        args.foldlM (fun acc a => do
          let c2 ← eval n a acc fs
          pure { acc with used := acc.used ∪ c2.used, warnings := c2.warnings }) s2
    | .Compare left comparators _ =>
      -- CompareEvaluator: the comparators then the LHS, each on a copy,
      -- unioning used names back.
      (comparators ++ [left]).foldlM (fun acc it => do
        let ch ← eval n it acc fs
        pure { acc with used := acc.used ∪ ch.used, warnings := ch.warnings }) s
    | .IfExp test body orelse _ =>
      -- IfExpEvaluator: evaluate the test on a copy; `set_used`/`update_pc`
      -- with the test's used *labels* (the labels are added to the used-name
      -- set, as in the source); then evaluate both branches on copies.
      do
        let ch ← eval n test s fs
        let u := get_used ch
        let s1 : EvState := { s with used := s.used ∪ u, pc := s.pc ∪ u, warnings := ch.warnings }
        let c1 ← eval n body s1 fs
        let c2 ← eval n orelse { s1 with warnings := c1.warnings } fs
        pure { s1 with warnings := c2.warnings }
    | .Name id ctx l =>
      -- NameEvaluator: in store context report explicit/implicit violations
      -- against the target's labels; in load context mark the name used.
      let curr := get_labels s.rules id
      match ctx with
      | .Store =>
        let s1 := if get_used s ⊆ curr then s
          else s.error ⟨.explicit, l, s.snap, id, some curr⟩
        let s2 := if s.pc ⊆ curr then s1
          else s1.error ⟨.implicit, l, s.snap, id, some curr⟩
        pure s2
      | .Load => pure { s with used := insert id s.used }
    | .Tuple elts _ _ =>
      -- TupleEvaluator: each element on a copy, unioning used names back.
      elts.foldlM (fun acc nd => do
        let ch ← eval n nd acc fs
        pure { acc with used := acc.used ∪ ch.used, warnings := ch.warnings }) s
    | .Constant _ => pure s
    | .Pass _ => pure s
    | .Attribute _ _ _ _ => pure s   -- UnimplementedEvaluator: warn only
    | .Return _ => pure s            -- UnimplementedEvaluator: warn only

/-- Extract the final warning list of a completed analysis. -/
def okWarnings : Except PyErr EvState → Option (List Err)
  | .ok s => some s.warnings
  | .error _ => none

instance : DecidableEq (Except PyErr EvState) := fun a b =>
  match a, b with
  | .ok x, .ok y => decidable_of_iff (x = y) (by simp)
  | .error x, .error y => decidable_of_iff (x = y) (by simp)
  | .ok _, .error _ => isFalse (by simp)
  | .error _, .ok _ => isFalse (by simp)

/-- The argument loop at the end of `CallEvaluator.evaluate`: evaluate each
argument on a copy of the current state and union its used names back. -/
def evalArgs (k : Nat) (args : List Ast) (st : EvState) (fs : FuncStates) :
    Except PyErr EvState :=
  args.foldlM (fun acc a => do
    let c2 ← eval k a acc fs
    pure { acc with used := acc.used ∪ c2.used, warnings := c2.warnings }) st

/-- The implicit-flow violation `CallEvaluator` records for a call to the
named function `f` under a non-empty PC. -/
def callErr (s : EvState) (f : String) (l : Nat) : Err :=
  ⟨.implicit, l, ⟨s.rules, s.pc, s.used⟩, f, some (get_labels s.rules f)⟩

/-! ## Concrete scenario programs -/

/-- Rules of the annotation `a: L.` (scenario 3). -/
def rt3 : RuleTable := add_rules [] " a: L."

/-- `def alpha():  if a == 1:  print()  else:  return 0` -/
def prog3 : Ast := .Module [.FunctionDef "alpha"
  [.If (.Compare (.Name "a" .Load 4) [.Constant 4] 4)
    [.Expr (.Call (.Name "print" .Load 5) [] 5) 5]
    [.Return 7] 4] 3]

/-- Function states the driver binds for scenario 3: the comment line
`# fp a: L.` immediately precedes `def alpha`. -/
def fs3 : FuncStates := [("alpha", (rt3, ∅)), (MAIN_SCRIPT, ([], ∅))]

/-- Rules of the annotation `a: high. d: med.` (scenario 5). -/
def rt6 : RuleTable := add_rules [] " a: high. d: med."

/-- `a = 1` ; `(b, c) = (a, 2)` ; `e = (a, b, d)` at top level. -/
def prog6 : Ast := .Module [
  .Assign [.Name "a" .Store 3] (.Constant 3) 3,
  .Assign [.Tuple [.Name "b" .Store 4, .Name "c" .Store 4] .Store 4]
          (.Tuple [.Name "a" .Load 4, .Constant 4] .Load 4) 4,
  .Assign [.Name "e" .Store 5]
          (.Tuple [.Name "a" .Load 5, .Name "b" .Load 5, .Name "d" .Load 5] .Load 5) 5]

/-- Function states for scenario 5 (top-level annotation). -/
def fs6 : FuncStates := [(MAIN_SCRIPT, (rt6, ∅))]

/-- `if a == 1:  o.m()` under the top-level annotation `a: L.`: at the call,
the PC is `{L}` and the callee is an `ast.Attribute`. -/
def prog7 : Ast := .Module [
  .If (.Compare (.Name "a" .Load 3) [.Constant 3] 3)
    [.Expr (.Call (.Attribute (.Name "o" .Load 4) "m" .Load 4) [] 4) 4] [] 3]

/-- Function states for the crash scenario. -/
def fs7 : FuncStates := [(MAIN_SCRIPT, (add_rules [] " a: L.", ∅))]

/-! ## Reference semantics of `State` objects (`flowpy/state.py`)

The functional evaluator above resolves the sharing between a state and its
copies by hand. To settle the aliasing claims about `State.copy` themselves,
this section gives `State` objects Python's reference semantics: a heap maps
addresses to the four mutable attributes, a state is a quadruple of
addresses, `deepcopy` allocates fresh addresses with equal contents, and the
plain attribute assignment `state.__warnings = self.__warnings` copies the
address. -/

/-- The Python heap, one store per attribute type; `next` is the lowest
address not yet allocated. -/
structure PyHeap where
  next : Nat
  rulesAt : Nat → RuleTable
  pcAt : Nat → Finset String
  usedAt : Nat → Finset String
  sinkAt : Nat → List Err

/-- A `State` object: addresses of its `__rules`, `__pc`, `__used` and
`__warnings` attributes. -/
structure StRef where
  rules : Nat
  pc : Nat
  used : Nat
  sink : Nat
deriving DecidableEq

/-- A state is well formed in a heap when all its addresses are allocated. -/
def State.wf (h : PyHeap) (s : StRef) : Prop :=
  s.rules < h.next ∧ s.pc < h.next ∧ s.used < h.next ∧ s.sink < h.next

instance (h : PyHeap) (s : StRef) : Decidable (State.wf h s) := by
  unfold State.wf; infer_instance

/-- `State.copy`: `deepcopy` of `__pc`, `__rules` and `__used` (fresh
addresses holding equal values); `__warnings` is assigned by reference (the
same address). -/
def State.copy (h : PyHeap) (s : StRef) : PyHeap × StRef :=
  (⟨h.next + 3,
    fun i => if i = h.next then h.rulesAt s.rules else h.rulesAt i,
    fun i => if i = h.next + 1 then h.pcAt s.pc else h.pcAt i,
    fun i => if i = h.next + 2 then h.usedAt s.used else h.usedAt i,
    h.sinkAt⟩,
   ⟨h.next, h.next + 1, h.next + 2, s.sink⟩)

/-- `State.add_rules` on a state object: updates the rule table in place. -/
def State.addRules (h : PyHeap) (s : StRef) (comment : String) : PyHeap :=
  { h with rulesAt := fun i =>
      if i = s.rules then add_rules (h.rulesAt s.rules) comment else h.rulesAt i }

/-- `State.update_pc` on a state object: unions labels into the PC in place. -/
def State.updatePc (h : PyHeap) (s : StRef) (ls : Finset String) : PyHeap :=
  { h with pcAt := fun i =>
      if i = s.pc then h.pcAt s.pc ∪ ls else h.pcAt i }

/-- `State.get_labels` on a state object. -/
def State.getLabels (h : PyHeap) (s : StRef) (v : String) : Finset String :=
  get_labels (h.rulesAt s.rules) v

/-- `State.get_pc` on a state object. -/
def State.getPc (h : PyHeap) (s : StRef) : Finset String :=
  h.pcAt s.pc

/-- `State.error` on a state object: appends to the warnings list in place. -/
def State.error (h : PyHeap) (s : StRef) (e : Err) : PyHeap :=
  { h with sinkAt := fun i =>
      if i = s.sink then h.sinkAt s.sink ++ [e] else h.sinkAt i }

/-- `State.get_warnings` on a state object. -/
def State.getWarnings (h : PyHeap) (s : StRef) : List Err :=
  h.sinkAt s.sink

/-- An `n`-fold chain of copies: `s.copy().copy()....copy()`. -/
def descend : PyHeap → StRef → Nat → PyHeap × StRef
  | h, st, 0 => (h, st)
  | h, st, n + 1 =>
    let p := State.copy h st
    descend p.1 p.2 n

/-- A concrete four-object heap used by the witnesses. -/
def heap0 : PyHeap :=
  ⟨4, fun i => if i = 0 then [("a", {"high"})] else [],
      fun i => if i = 1 then {"pcl"} else ∅,
      fun i => if i = 2 then {"x"} else ∅,
      fun _ => []⟩

/-- The state object living in `heap0`. -/
def st0 : StRef := ⟨0, 1, 2, 3⟩

/-- A fresh evaluator state whose PC has been raised to `{L}`. -/
def sPC : EvState := { initState with pc := {"L"} }

/-! ## Rule-table lemmas -/

theorem hasClearing_cons {e : String × Finset String} {t : RuleTable} {v : String} :
    HasClearing (e :: t) v ↔ (appliesTo e.1 v = true ∧ e.2 = ∅) ∨ HasClearing t v := by
  simp [HasClearing]

theorem getLabelsGo_spec (v : String) :
    ∀ (t : RuleTable) (acc : Finset String),
      getLabelsGo v t acc = if HasClearing t v then ∅ else acc ∪ matchingUnion t v := by
  intro t
  induction t with
  | nil => intro acc; simp [getLabelsGo, HasClearing, matchingUnion]
  | cons e t ih =>
    intro acc
    obtain ⟨p, ls⟩ := e
    by_cases hap : appliesTo p v
    · by_cases hls : ls = ∅
      · simp [getLabelsGo, hap, hls, hasClearing_cons]
      · rw [show getLabelsGo v ((p, ls) :: t) acc
            = getLabelsGo v t (acc ∪ ls) by simp [getLabelsGo, hap, hls], ih]
        by_cases hc : HasClearing t v
        · simp [hc, hasClearing_cons, hls]
        · simp [hc, hasClearing_cons, hls, hap, matchingUnion, Finset.union_assoc]
    · rw [show getLabelsGo v ((p, ls) :: t) acc = getLabelsGo v t acc by
        simp [getLabelsGo, hap], ih]
      simp [hasClearing_cons, hap, matchingUnion]

theorem get_labels_spec (t : RuleTable) (v : String) :
    get_labels t v = if HasClearing t v then ∅ else matchingUnion t v := by
  rw [get_labels, getLabelsGo_spec]
  by_cases hc : HasClearing t v <;> simp [hc]

theorem matchingUnion_perm {t t' : RuleTable} (h : t.Perm t') (v : String) :
    matchingUnion t v = matchingUnion t' v := by
  induction h with
  | nil => rfl
  | cons x _ ih => simp [matchingUnion, ih]
  | swap x y l =>
    simp only [matchingUnion]
    by_cases hx : appliesTo x.1 v <;> by_cases hy : appliesTo y.1 v <;>
      simp [hx, hy, Finset.union_left_comm]
  | trans _ _ ih1 ih2 => exact ih1.trans ih2

theorem hasClearing_perm {t t' : RuleTable} (h : t.Perm t') (v : String) :
    HasClearing t v ↔ HasClearing t' v := by
  unfold HasClearing
  constructor
  · rintro ⟨e, he, hp⟩; exact ⟨e, h.mem_iff.mp he, hp⟩
  · rintro ⟨e, he, hp⟩; exact ⟨e, h.mem_iff.mpr he, hp⟩

/-- C1: for every rule table and name, `get_labels` returns `∅` exactly when
some matching rule is clearing, the union of all matching rules' labels
otherwise; and the result does not depend on the declaration order. -/
theorem c1_get_labels_clearing (t t' : RuleTable) (v : String) (hperm : t.Perm t') :
    (get_labels t v = if HasClearing t v then ∅ else matchingUnion t v)
  ∧ get_labels t v = get_labels t' v := by
  refine ⟨get_labels_spec t v, ?_⟩
  rw [get_labels_spec, get_labels_spec, matchingUnion_perm hperm]
  by_cases hc : HasClearing t v
  · simp [hc, (hasClearing_perm hperm v).mp hc]
  · have hc' : ¬ HasClearing t' v := fun h => hc ((hasClearing_perm hperm v).mpr h)
    simp [hc, hc']

/-- Witness for C1 at a concrete table: the clearing rule for `a` wins in
either declaration order. -/
theorem c1_witness :
    (([("b", ({"x"} : Finset String)), ("a", ∅)] : RuleTable).Perm
      [("a", ∅), ("b", {"x"})])
  ∧ ((get_labels [("b", ({"x"} : Finset String)), ("a", ∅)] "a"
        = if HasClearing [("b", ({"x"} : Finset String)), ("a", ∅)] "a" then ∅
          else matchingUnion [("b", ({"x"} : Finset String)), ("a", ∅)] "a")
    ∧ get_labels [("b", ({"x"} : Finset String)), ("a", ∅)] "a"
        = get_labels [("a", ∅), ("b", {"x"})] "a") :=
  ⟨by decide, c1_get_labels_clearing _ _ "a" (by decide)⟩

/-! ## Lemmas about rule declaration (`State.add_rules`) -/

theorem setRule_setRule (t : RuleTable) (p : String) (a b : Finset String) :
    setRule (setRule t p a) p b = setRule t p b := by
  induction t with
  | nil => simp [setRule]
  | cons e t ih =>
    obtain ⟨q, m⟩ := e
    by_cases h : q = p
    · simp [setRule, h]
    · simp [setRule, h, ih]

theorem lookupRule_setRule (t : RuleTable) (p : String) (a : Finset String) :
    lookupRule (setRule t p a) p = some a := by
  induction t with
  | nil => simp [setRule, lookupRule]
  | cons e t ih =>
    obtain ⟨q, m⟩ := e
    by_cases h : q = p
    · simp [setRule, h, lookupRule]
    · simp [setRule, h, lookupRule, ih]

theorem containsRule_setRule (t : RuleTable) (p : String) (a : Finset String) :
    containsRule (setRule t p a) p = true := by
  induction t with
  | nil => simp [setRule, containsRule]
  | cons e t ih =>
    obtain ⟨q, m⟩ := e
    by_cases h : q = p
    · simp [setRule, h, containsRule]
    · simp only [setRule, if_neg h]
      simp only [containsRule, List.any_cons] at ih ⊢
      simp [ih]

theorem addToRule_setRule (t : RuleTable) (p : String) (a b : Finset String) :
    addToRule (setRule t p a) p b = setRule t p (a ∪ b) := by
  induction t with
  | nil => simp [setRule, addToRule]
  | cons e t ih =>
    obtain ⟨q, m⟩ := e
    by_cases h : q = p
    · simp [setRule, addToRule, h]
    · simp [setRule, addToRule, h, ih]

theorem containsRule_addToRule (t : RuleTable) (p q : String) (ls : Finset String) :
    containsRule (addToRule t p ls) q = containsRule t q := by
  induction t with
  | nil => simp [addToRule]
  | cons e t ih =>
    obtain ⟨r, m⟩ := e
    by_cases h : r = p
    · simp [addToRule, h, containsRule]
    · simp only [addToRule, if_neg h]
      simp only [containsRule, List.any_cons] at ih ⊢
      simp [ih]

theorem addToRule_addToRule (t : RuleTable) (p : String) (a b : Finset String) :
    addToRule (addToRule t p a) p b = addToRule t p (a ∪ b) := by
  induction t with
  | nil => simp [addToRule]
  | cons e t ih =>
    obtain ⟨q, m⟩ := e
    by_cases h : q = p
    · simp [addToRule, h, Finset.union_assoc]
    · simp [addToRule, h, ih]

theorem containsRule_append_single (t : RuleTable) (p : String) (a : Finset String) :
    containsRule (t ++ [(p, a)]) p = true := by
  simp [containsRule]

theorem addToRule_append_of_not_contains (t : RuleTable) (p : String)
    (a b : Finset String) (h : containsRule t p = false) :
    addToRule (t ++ [(p, a)]) p b = t ++ [(p, a ∪ b)] := by
  induction t with
  | nil => simp [addToRule]
  | cons e t ih =>
    obtain ⟨q, m⟩ := e
    simp only [containsRule, List.any_cons, Bool.or_eq_false_iff] at h
    have hq : ¬ (q = p) := by
      intro hqp
      simp [hqp] at h
    simp only [List.cons_append, addToRule, if_neg hq, List.append_eq]
    rw [ih (by simpa [containsRule] using h.2)]

theorem lookupRule_addToRule (t : RuleTable) (p : String) (ls : Finset String) :
    lookupRule (addToRule t p ls) p = (lookupRule t p).map (fun m => m ∪ ls) := by
  induction t with
  | nil => simp [addToRule, lookupRule]
  | cons e t ih =>
    obtain ⟨q, m⟩ := e
    by_cases h : q = p
    · simp [addToRule, h, lookupRule]
    · simp [addToRule, h, lookupRule, ih]

theorem matchingUnion_addToRule_mono (t : RuleTable) (p : String)
    (ls : Finset String) (v : String) :
    matchingUnion t v ⊆ matchingUnion (addToRule t p ls) v := by
  induction t with
  | nil => simp [addToRule]
  | cons e t ih =>
    obtain ⟨q, m⟩ := e
    rcases eq_or_ne q p with h | h
    · subst h
      by_cases hap : appliesTo q v
      · simp only [addToRule, if_pos rfl, matchingUnion, if_pos hap]
        exact Finset.union_subset_union (Finset.subset_union_left) (subset_refl _)
      · simp [addToRule, matchingUnion, hap]
    · by_cases hap : appliesTo q v
      · simp only [addToRule, if_neg h, matchingUnion, if_pos hap]
        exact Finset.union_subset_union (subset_refl _) ih
      · simp [addToRule, h, matchingUnion, hap, ih]

theorem hasClearing_addToRule (t : RuleTable) (p : String) (ls : Finset String)
    (v : String) (hls : ls ≠ ∅) (h : HasClearing (addToRule t p ls) v) :
    HasClearing t v := by
  induction t with
  | nil => simpa [addToRule] using h
  | cons e t ih =>
    obtain ⟨q, m⟩ := e
    by_cases hq : q = p
    · rw [show addToRule ((q, m) :: t) p ls = (q, m ∪ ls) :: t by simp [addToRule, hq]] at h
      rcases hasClearing_cons.mp h with ⟨hap, hm⟩ | h2
      · exact absurd (Finset.union_eq_empty.mp hm).2 hls
      · exact hasClearing_cons.mpr (Or.inr h2)
    · rw [show addToRule ((q, m) :: t) p ls = (q, m) :: addToRule t p ls by
        simp [addToRule, hq]] at h
      rcases hasClearing_cons.mp h with h1 | h2
      · exact hasClearing_cons.mpr (Or.inl h1)
      · exact hasClearing_cons.mpr (Or.inr (ih h2))

theorem matchingUnion_append_single (t : RuleTable) (p : String)
    (ls : Finset String) (v : String) :
    matchingUnion (t ++ [(p, ls)]) v
      = matchingUnion t v ∪ (if appliesTo p v then ls else ∅) := by
  induction t with
  | nil => by_cases hap : appliesTo p v <;> simp [matchingUnion, hap]
  | cons e t ih =>
    by_cases hap : appliesTo e.1 v
    · simp [matchingUnion, hap, ih, Finset.union_assoc]
    · simp [matchingUnion, hap, ih]

theorem hasClearing_append_single (t : RuleTable) (p : String)
    (ls : Finset String) (v : String) :
    HasClearing (t ++ [(p, ls)]) v
      ↔ HasClearing t v ∨ (appliesTo p v = true ∧ ls = ∅) := by
  unfold HasClearing
  simp only [List.mem_append, List.mem_singleton]
  constructor
  · rintro ⟨e, he | he, hp⟩
    · exact Or.inl ⟨e, he, hp⟩
    · subst he; exact Or.inr hp
  · rintro (⟨e, he, hp⟩ | hp)
    · exact ⟨e, Or.inl he, hp⟩
    · exact ⟨(p, ls), Or.inr rfl, hp⟩

theorem get_labels_addToRule_mono (t : RuleTable) (p : String)
    (ls : Finset String) (v : String) (hls : ls ≠ ∅) :
    get_labels t v ⊆ get_labels (addToRule t p ls) v := by
  rw [get_labels_spec, get_labels_spec]
  by_cases hc : HasClearing t v
  · simp [hc]
  · have hc' : ¬ HasClearing (addToRule t p ls) v :=
      fun h => hc (hasClearing_addToRule t p ls v hls h)
    simp only [if_neg hc, if_neg hc']
    exact matchingUnion_addToRule_mono t p ls v

theorem get_labels_append_mono (t : RuleTable) (p : String)
    (ls : Finset String) (v : String) (hls : ls ≠ ∅) :
    get_labels t v ⊆ get_labels (t ++ [(p, ls)]) v := by
  rw [get_labels_spec, get_labels_spec]
  by_cases hc : HasClearing t v
  · simp [hc]
  · have hc' : ¬ HasClearing (t ++ [(p, ls)]) v := by
      rw [hasClearing_append_single]
      rintro (h | ⟨_, h⟩)
      · exact hc h
      · exact hls h
    simp only [if_neg hc, if_neg hc', matchingUnion_append_single]
    exact Finset.subset_union_left

/-- `declRule` applied twice with the same arguments equals one application. -/
theorem declRule_idem (t : RuleTable) (regex : String) (labels : List String) :
    declRule (declRule t regex labels) regex labels = declRule t regex labels := by
  by_cases h0 : labels = []
  · rw [declRule, if_pos h0, declRule, if_pos h0]
  · by_cases h2 : labels.filter (fun x => x ≠ "()") = []
    · rw [declRule, if_neg h0, if_pos h2, declRule, if_neg h0, if_pos h2, setRule_setRule]
    · by_cases hc : containsRule t regex = true
      · have inner_eq : declRule t regex labels
            = addToRule t regex (labels.filter (fun x => x ≠ "()")).toFinset := by
          rw [declRule, if_neg h0, if_neg h2, if_pos hc]
        rw [inner_eq, declRule, if_neg h0, if_neg h2,
          if_pos (by rw [containsRule_addToRule]; exact hc),
          addToRule_addToRule, Finset.union_self]
      · have inner_eq : declRule t regex labels
            = t ++ [(regex, (labels.filter (fun x => x ≠ "()")).toFinset)] := by
          rw [declRule, if_neg h0, if_neg h2, if_neg hc]
        rw [inner_eq, declRule, if_neg h0, if_neg h2,
          if_pos (containsRule_append_single t regex _),
          addToRule_append_of_not_contains _ _ _ _ (by simpa using hc),
          Finset.union_self]

/-- C9: re-declaring a pattern with a non-clearing label list is additive —
`declRule` (the per-clause core of `State.add_rules`) is idempotent, never
removes labels from any lookup, and unions the new labels into the stored
rule; in particular declaring `a: high.` twice equals declaring it once. -/
theorem c9_redeclaration_additive (t : RuleTable) (regex : String)
    (labels : List String) (v : String) :
    declRule (declRule t regex labels) regex labels = declRule t regex labels
  ∧ (labels.filter (fun x => x ≠ "()") ≠ [] →
      get_labels t v ⊆ get_labels (declRule t regex labels) v)
  ∧ (labels.filter (fun x => x ≠ "()") ≠ [] → containsRule t regex = true →
      lookupRule (declRule t regex labels) regex
        = (lookupRule t regex).map
            (fun m => m ∪ (labels.filter (fun x => x ≠ "()")).toFinset))
  ∧ add_rules (add_rules t "a: high.") "a: high." = add_rules t "a: high." := by
  have h0aux : ∀ h2 : labels.filter (fun x => x ≠ "()") ≠ [], labels ≠ [] := by
    intro h2 h
    rw [h] at h2
    simp at h2
  refine ⟨declRule_idem t regex labels, ?_, ?_, ?_⟩
  · intro h2
    have hL : (labels.filter (fun x => x ≠ "()")).toFinset ≠ ∅ := by
      rw [Ne, List.toFinset_eq_empty_iff]
      exact h2
    by_cases hc : containsRule t regex = true
    · rw [declRule, if_neg (h0aux h2), if_neg h2, if_pos hc]
      exact get_labels_addToRule_mono t regex _ v hL
    · rw [declRule, if_neg (h0aux h2), if_neg h2, if_neg hc]
      exact get_labels_append_mono t regex _ v hL
  · intro h2 hc
    rw [declRule, if_neg (h0aux h2), if_neg h2, if_pos hc, lookupRule_addToRule]
  · have e1 : ∀ u : RuleTable, add_rules u "a: high." = declRule u "a" ["high"] :=
      fun u => rfl
    rw [e1, e1, declRule_idem]

/-- Witness for C9 at a concrete table with an existing `a` rule. -/
theorem c9_witness :
    ((["high"].filter (fun x => x ≠ "()")) ≠ [])
  ∧ containsRule [("a", ({"x"} : Finset String))] "a" = true
  ∧ get_labels [("a", ({"x"} : Finset String))] "a"
      ⊆ get_labels (declRule [("a", ({"x"} : Finset String))] "a" ["high"]) "a"
  ∧ lookupRule (declRule [("a", ({"x"} : Finset String))] "a" ["high"]) "a"
      = (lookupRule [("a", ({"x"} : Finset String))] "a").map
          (fun m => m ∪ (["high"].filter (fun x => x ≠ "()")).toFinset) :=
  ⟨by decide, by decide,
   (c9_redeclaration_additive [("a", {"x"})] "a" ["high"] "a").2.1 (by decide),
   (c9_redeclaration_additive [("a", {"x"})] "a" ["high"] "a").2.2.1 (by decide) (by decide)⟩

/-! ## Lemmas for clearing re-declaration (C10) -/

theorem self_mem_setRule (t : RuleTable) (p : String) (X : Finset String) :
    (p, X) ∈ setRule t p X := by
  induction t with
  | nil => simp [setRule]
  | cons e t ih =>
    obtain ⟨q, m⟩ := e
    by_cases h : q = p
    · simp [setRule, h]
    · simp only [setRule, if_neg h, List.mem_cons]
      exact Or.inr ih

theorem mem_setRule_of_nodup {t : RuleTable} {p : String} {X : Finset String}
    {e : String × Finset String} (h3 : (t.map Prod.fst).Nodup)
    (he : e ∈ setRule t p X) : e = (p, X) ∨ (e ∈ t ∧ e.1 ≠ p) := by
  induction t with
  | nil => simpa [setRule] using he
  | cons f t ih =>
    obtain ⟨q, m⟩ := f
    rw [List.map_cons, List.nodup_cons] at h3
    by_cases hq : q = p
    · subst hq
      rw [show setRule ((q, m) :: t) q X = (q, X) :: t by simp [setRule]] at he
      rcases List.mem_cons.mp he with h | h
      · exact Or.inl h
      · refine Or.inr ⟨List.mem_cons_of_mem _ h, ?_⟩
        intro hep
        have hmem : e.1 ∈ t.map Prod.fst := List.mem_map_of_mem Prod.fst h
        rw [hep] at hmem
        exact h3.1 hmem
    · rw [show setRule ((q, m) :: t) p X = (q, m) :: setRule t p X by
        simp [setRule, hq]] at he
      rcases List.mem_cons.mp he with h | h
      · exact Or.inr ⟨by simp [h], by simp [h, hq]⟩
      · rcases ih h3.2 h with h' | h'
        · exact Or.inl h'
        · exact Or.inr ⟨List.mem_cons_of_mem _ h'.1, h'.2⟩

theorem matchingUnion_no_match {t : RuleTable} {v : String}
    (h : ∀ e ∈ t, appliesTo e.1 v = false) : matchingUnion t v = ∅ := by
  induction t with
  | nil => rfl
  | cons e t ih =>
    have he := h e (List.mem_cons_self e t)
    rw [matchingUnion, if_neg (by simp [he]), ih fun f hf => h f (List.mem_cons_of_mem _ hf)]

theorem matchingUnion_setRule {t : RuleTable} {r v : String} {X : Finset String}
    (h1 : appliesTo r v = true)
    (h2 : ∀ e ∈ t, e.1 ≠ r → appliesTo e.1 v = false)
    (h3 : (t.map Prod.fst).Nodup) :
    matchingUnion (setRule t r X) v = X := by
  induction t with
  | nil => simp [setRule, matchingUnion, h1]
  | cons f t ih =>
    obtain ⟨q, m⟩ := f
    rw [List.map_cons, List.nodup_cons] at h3
    by_cases hq : q = r
    · subst hq
      rw [show setRule ((q, m) :: t) q X = (q, X) :: t by simp [setRule]]
      have hnm : matchingUnion t v = ∅ := by
        refine matchingUnion_no_match fun e he => ?_
        refine h2 e (List.mem_cons_of_mem _ he) ?_
        intro heq
        have hmem : e.1 ∈ t.map Prod.fst := List.mem_map_of_mem Prod.fst he
        rw [heq] at hmem
        exact h3.1 hmem
      simp [matchingUnion, h1, hnm]
    · rw [show setRule ((q, m) :: t) r X = (q, m) :: setRule t r X by
        simp [setRule, hq]]
      have hqv : appliesTo q v = false :=
        h2 (q, m) (List.mem_cons_self _ t) (by simpa using hq)
      rw [matchingUnion, if_neg (by simp [hqv])]
      exact ih (fun e he hne => h2 e (List.mem_cons_of_mem _ he) hne) h3.2

theorem hasClearing_setRule_iff {t : RuleTable} {r v : String} {X : Finset String}
    (h1 : appliesTo r v = true)
    (h2 : ∀ e ∈ t, e.1 ≠ r → appliesTo e.1 v = false)
    (h3 : (t.map Prod.fst).Nodup) :
    HasClearing (setRule t r X) v ↔ X = ∅ := by
  constructor
  · rintro ⟨e, he, hap, he2⟩
    rcases mem_setRule_of_nodup h3 he with h | h
    · rw [h] at he2
      exact he2
    · rw [h2 e h.1 h.2] at hap
      cases hap
  · intro hX
    exact ⟨(r, X), self_mem_setRule t r X, h1, hX⟩

theorem get_labels_setRule {t : RuleTable} {r v : String} {X : Finset String}
    (h1 : appliesTo r v = true)
    (h2 : ∀ e ∈ t, e.1 ≠ r → appliesTo e.1 v = false)
    (h3 : (t.map Prod.fst).Nodup) :
    get_labels (setRule t r X) v = X := by
  rw [get_labels_spec]
  by_cases hX : X = ∅
  · rw [if_pos ((hasClearing_setRule_iff h1 h2 h3).mpr hX), hX]
  · rw [if_neg (fun h => hX ((hasClearing_setRule_iff h1 h2 h3).mp h)),
      matchingUnion_setRule h1 h2 h3]

/-- C10: clearing status is not sticky — after `p: ().` a re-declaration
`p: l.` makes lookups on a name matched only by `p` return `{l}`; and a
clearing re-declaration replaces the stored rule outright, discarding all
previously accumulated labels. -/
theorem c10_clearing_not_sticky (t : RuleTable) (r lab v : String)
    (h1 : appliesTo r v = true)
    (h2 : ∀ e ∈ t, e.1 ≠ r → appliesTo e.1 v = false)
    (h3 : (t.map Prod.fst).Nodup)
    (h4 : lab ≠ "()") :
    get_labels (declRule (declRule t r ["()"]) r [lab]) v = {lab}
  ∧ get_labels (declRule t r ["()"]) v = ∅
  ∧ lookupRule (declRule t r ["()"]) r = some ∅
  ∧ get_labels (add_rules (add_rules [("p", {"old"})] "p: ().") "p: l.") "p"
      = {"l"} := by
  have hclear : declRule t r ["()"] = setRule t r ∅ := by
    rw [declRule, if_neg (by simp), if_pos (by decide)]
  have hlab : [lab].filter (fun x => x ≠ "()") = [lab] := by simp [h4]
  have hdecl2 : declRule (setRule t r ∅) r [lab] = setRule t r {lab} := by
    rw [declRule, hlab, if_neg (by simp), if_neg (by simp),
      if_pos (containsRule_setRule t r ∅), addToRule_setRule]
    simp
  refine ⟨?_, ?_, ?_, by decide⟩
  · rw [hclear, hdecl2]
    exact get_labels_setRule h1 h2 h3
  · rw [hclear]
    exact get_labels_setRule h1 h2 h3
  · rw [hclear, lookupRule_setRule]

/-- Witness for C10 at the concrete table `[("p", {"old"})]`. -/
theorem c10_witness :
    get_labels (declRule (declRule [("p", ({"old"} : Finset String))] "p" ["()"])
        "p" ["l"]) "p" = {"l"}
  ∧ get_labels (declRule [("p", ({"old"} : Finset String))] "p" ["()"]) "p" = ∅
  ∧ lookupRule (declRule [("p", ({"old"} : Finset String))] "p" ["()"]) "p" = some ∅
  ∧ get_labels (add_rules (add_rules [("p", {"old"})] "p: ().") "p: l.") "p"
      = {"l"} :=
  c10_clearing_not_sticky [("p", {"old"})] "p" "l" "p"
    (by decide) (by decide) (by decide) (by decide)

/-! ## Evaluator theorems -/

/-- C5: a `Name` in store context records an explicit-flow violation iff the
state's used labels are not a subset of the target's labels and an
implicit-flow violation iff the PC is not a subset, the two checks firing
independently and changing nothing but the sink; a `Name` in load context
only marks the name as used and never records a violation. -/
theorem c5_name_evaluator (n : Nat) (id : String) (l : Nat) (s : EvState)
    (fs : FuncStates) :
    eval (n + 1) (.Name id .Store l) s fs =
      .ok { s with warnings := s.warnings
        ++ (if get_used s ⊆ get_labels s.rules id then []
            else [⟨.explicit, l, s.snap, id, some (get_labels s.rules id)⟩])
        ++ (if s.pc ⊆ get_labels s.rules id then []
            else [⟨.implicit, l, s.snap, id, some (get_labels s.rules id)⟩]) }
  ∧ eval (n + 1) (.Name id .Load l) s fs = .ok { s with used := insert id s.used } := by
  constructor
  · by_cases h1 : get_used s ⊆ get_labels s.rules id <;>
      by_cases h2 : s.pc ⊆ get_labels s.rules id <;>
        simp [eval, h1, h2, EvState.error, EvState.snap] <;> rfl
  · rfl

theorem except_bind_ok (a : EvState) (f : EvState → Except PyErr EvState) :
    (Except.ok a : Except PyErr EvState) >>= f = f a := rfl

theorem except_bind_error (e : PyErr) (f : EvState → Except PyErr EvState) :
    (Except.error e : Except PyErr EvState) >>= f = Except.error e := rfl

/-- C8 counterexample: a call whose callee is an `ast.Attribute`, evaluated
under a non-empty PC, aborts with `AttributeError` instead of recording an
implicit-flow violation for the call. -/
theorem c8_counterexample :
    ({ initState with pc := {"L"} } : EvState).pc ≠ ∅
  ∧ eval 10 (.Call (.Attribute (.Name "o" .Load 1) "m" .Load 1) [] 1)
      { initState with pc := {"L"} } [] = .error .attributeError :=
  ⟨by decide, by decide⟩

/-- C8 (amended to calls whose callee is a `Name` node): the call-site
implicit-flow violation is recorded exactly when the enclosing PC is
non-empty, independent of the labels of the callee or the arguments; each
argument is then evaluated in turn with its used names unioned back into the
state, so the final used set contains the initial one and PC/rules are
unchanged by the argument loop. -/
theorem c8_call_evaluator (n : Nat) (f : String) (lf l : Nat) (args : List Ast)
    (s : EvState) (fs : FuncStates) :
    eval (n + 2) (.Call (.Name f .Load lf) args l) s fs
      = evalArgs (n + 1) args
          { s with warnings := s.warnings
              ++ (if s.pc = ∅ then [] else [callErr s f l]) } fs
  ∧ (∀ (k : Nat) (a : Ast) (rest : List Ast) (st : EvState),
      evalArgs k (a :: rest) st fs
        = (eval k a st fs).bind (fun c2 =>
            evalArgs k rest
              { st with used := st.used ∪ c2.used, warnings := c2.warnings } fs))
  ∧ (∀ (k : Nat) (args2 : List Ast) (st st' : EvState),
      evalArgs k args2 st fs = .ok st' →
        st.used ⊆ st'.used ∧ st'.pc = st.pc ∧ st'.rules = st.rules) := by
  refine ⟨?_, ?_, ?_⟩
  · by_cases hpc : s.pc = ∅ <;>
      simp [eval, evalArgs, hpc, EvState.error, callErr, EvState.snap,
        Finset.union_self]
  · intro k a rest st
    cases h : eval k a st fs <;>
      simp [evalArgs, List.foldlM, h, except_bind_ok, except_bind_error, Except.bind]
  · intro k args2
    induction args2 with
    | nil =>
      intro st st' hok
      simp only [evalArgs, List.foldlM] at hok
      cases hok
      exact ⟨subset_refl _, rfl, rfl⟩
    | cons a rest ih =>
      intro st st' hok
      rw [show evalArgs k (a :: rest) st fs
          = (eval k a st fs).bind (fun c2 =>
              evalArgs k rest
                { st with used := st.used ∪ c2.used, warnings := c2.warnings } fs) by
        cases h : eval k a st fs <;>
          simp [evalArgs, List.foldlM, h, except_bind_ok, except_bind_error,
            Except.bind]] at hok
      cases h : eval k a st fs with
      | error err => rw [h] at hok; cases hok
      | ok c2 =>
        rw [h] at hok
        obtain ⟨hu, hp, hr⟩ :=
          ih { st with used := st.used ∪ c2.used, warnings := c2.warnings } st' hok
        exact ⟨(Finset.subset_union_left).trans hu, hp, hr⟩

/-- Witness for C8: the argument-loop lemma applied at a concrete state with
a non-empty PC and one constant argument. -/
theorem c8_witness :
    evalArgs 2 [.Constant 1] { sPC with warnings := [callErr sPC "f" 1] } []
      = .ok { sPC with warnings := [callErr sPC "f" 1] }
  ∧ (({ sPC with warnings := [callErr sPC "f" 1] } : EvState).used
      ⊆ ({ sPC with warnings := [callErr sPC "f" 1] } : EvState).used
    ∧ ({ sPC with warnings := [callErr sPC "f" 1] } : EvState).pc
      = ({ sPC with warnings := [callErr sPC "f" 1] } : EvState).pc
    ∧ ({ sPC with warnings := [callErr sPC "f" 1] } : EvState).rules
      = ({ sPC with warnings := [callErr sPC "f" 1] } : EvState).rules) :=
  ⟨by decide,
   (c8_call_evaluator 1 "f" 1 1 [.Constant 1] sPC []).2.2
     2 [.Constant 1] { sPC with warnings := [callErr sPC "f" 1] }
     { sPC with warnings := [callErr sPC "f" 1] } (by decide)⟩

/-- C3 counterexample: in scenario 3 the single recorded violation's target
descriptor carries `some ∅` — the *empty* label set (printed `()`), not the
absent (`None`, "untracked") label set the claim asserts. -/
theorem c3_counterexample :
    (okWarnings (eval 50 prog3 initState fs3)).map (fun ws => ws.map Err.targetLabels)
      = some [some ∅] := by decide

/-- C3 (amended): scenario 3 yields exactly one violation, an implicit-flow
violation at the `print()` line (5) whose state has PC `{L}`, whose target is
`print`, and whose target label set is the empty set (`()`/"cleared"), not an
absent one. -/
theorem c3_implicit_flow_scenario :
    okWarnings (eval 50 prog3 initState fs3)
      = some [⟨.implicit, 5, ⟨rt3, {"L"}, ∅⟩, "print", some ∅⟩] := by decide

/-- C6: scenario 5 yields exactly two explicit-flow violations — one for `b`
(checked pointwise: its state used only `a`, whose labels collapse to
`{high}`) and one for `e` (checked against the union of `a`, `b`, `d`, whose
labels collapse to `{high, med}`) — and none for `a`, `c` or `a = 1`. -/
theorem c6_destructuring_scenario :
    okWarnings (eval 50 prog6 initState fs6)
      = some [⟨.explicit, 4, ⟨rt6, ∅, {"a"}⟩, "b", some ∅⟩,
              ⟨.explicit, 5, ⟨rt6, ∅, {"a", "b", "d"}⟩, "e", some ∅⟩]
  ∧ ({"a"} : Finset String).biUnion (get_labels rt6) = {"high"}
  ∧ ({"a", "b", "d"} : Finset String).biUnion (get_labels rt6) = {"high", "med"} :=
  ⟨by decide, by decide, by decide⟩

/-- C7: the analysis does *not* always run to completion — on a method call
(`o.m()`, an `ast.Attribute` callee) reached under a non-empty PC, the
evaluator raises `AttributeError` at `self.node.func.id` and aborts. -/
theorem c7_crash : eval 50 prog7 initState fs7 = .error .attributeError := by decide

/-! ## State-copy theorems (heap model) -/

theorem descend_sink (n : Nat) :
    ∀ (h : PyHeap) (st : StRef),
      (descend h st n).2.sink = st.sink ∧ (descend h st n).1.sinkAt = h.sinkAt := by
  induction n with
  | zero => intro h st; exact ⟨rfl, rfl⟩
  | succ n ih =>
    intro h st
    simp only [descend]
    have h2 := ih (State.copy h st).1 (State.copy h st).2
    exact ⟨h2.1, h2.2⟩

/-- C4 counterexample: copying a state whose used-name set is `{"x"}` yields
a copy whose used-name set is again `{"x"}` — `State.copy` deep-copies
`__used` rather than resetting it to the empty set. -/
theorem c4_counterexample :
    (State.copy heap0 st0).1.usedAt (State.copy heap0 st0).2.used ≠ (∅ : Finset String)
  ∧ heap0.usedAt st0.used = {"x"}
  ∧ (State.copy heap0 st0).1.usedAt (State.copy heap0 st0).2.used = {"x"} :=
  ⟨by decide, by decide, by decide⟩

/-- C4 (amended): `State.copy` returns a state whose rule table, PC *and*
used-name set are deep copies of the original's (fresh addresses holding
equal values, the original's attributes untouched), while the violation sink
is retained by reference (the same address, no heap change). -/
theorem c4_copy_semantics (h : PyHeap) (s : StRef) (hwf : State.wf h s) :
    (State.copy h s).1.rulesAt (State.copy h s).2.rules = h.rulesAt s.rules
  ∧ (State.copy h s).1.pcAt (State.copy h s).2.pc = h.pcAt s.pc
  ∧ (State.copy h s).1.usedAt (State.copy h s).2.used = h.usedAt s.used
  ∧ (State.copy h s).2.rules ≠ s.rules
  ∧ (State.copy h s).2.pc ≠ s.pc
  ∧ (State.copy h s).2.used ≠ s.used
  ∧ (State.copy h s).2.sink = s.sink
  ∧ (State.copy h s).1.sinkAt = h.sinkAt
  ∧ (State.copy h s).1.rulesAt s.rules = h.rulesAt s.rules
  ∧ (State.copy h s).1.pcAt s.pc = h.pcAt s.pc
  ∧ (State.copy h s).1.usedAt s.used = h.usedAt s.used := by
  obtain ⟨h1, h2, h3, h4⟩ := hwf
  refine ⟨by simp [State.copy], by simp [State.copy], by simp [State.copy],
    by simp [State.copy]; omega, by simp [State.copy]; omega,
    by simp [State.copy]; omega, rfl, rfl, ?_, ?_, ?_⟩
  · simp only [State.copy]
    rw [if_neg (by omega)]
  · simp only [State.copy]
    rw [if_neg (by omega)]
  · simp only [State.copy]
    rw [if_neg (by omega)]

/-- Witness for C4 at the concrete heap `heap0`. -/
theorem c4_witness :
    (State.copy heap0 st0).1.rulesAt (State.copy heap0 st0).2.rules
      = heap0.rulesAt st0.rules
  ∧ (State.copy heap0 st0).1.pcAt (State.copy heap0 st0).2.pc = heap0.pcAt st0.pc
  ∧ (State.copy heap0 st0).1.usedAt (State.copy heap0 st0).2.used
      = heap0.usedAt st0.used
  ∧ (State.copy heap0 st0).2.rules ≠ st0.rules
  ∧ (State.copy heap0 st0).2.pc ≠ st0.pc
  ∧ (State.copy heap0 st0).2.used ≠ st0.used
  ∧ (State.copy heap0 st0).2.sink = st0.sink
  ∧ (State.copy heap0 st0).1.sinkAt = heap0.sinkAt
  ∧ (State.copy heap0 st0).1.rulesAt st0.rules = heap0.rulesAt st0.rules
  ∧ (State.copy heap0 st0).1.pcAt st0.pc = heap0.pcAt st0.pc
  ∧ (State.copy heap0 st0).1.usedAt st0.used = heap0.usedAt st0.used :=
  c4_copy_semantics heap0 st0 (by decide)

/-- C2: after `c = s.copy()`, declaring rules on `c` and raising `c`'s PC
leaves `s.get_labels` and `s`'s PC unchanged, and symmetrically mutations of
`s` leave `c`'s lookups unchanged; yet a violation recorded through any
`n`-fold copy descendant of `c` is appended to the very warnings list that
`s.get_warnings()` returns. -/
theorem c2_copy_isolation (h : PyHeap) (s : StRef) (hwf : State.wf h s)
    (comment : String) (L : Finset String) (e : Err) (n : Nat) (v : String) :
    State.getLabels
        (State.updatePc (State.addRules (State.copy h s).1 (State.copy h s).2 comment)
          (State.copy h s).2 L) s v
      = State.getLabels (State.copy h s).1 s v
  ∧ State.getPc
        (State.updatePc (State.addRules (State.copy h s).1 (State.copy h s).2 comment)
          (State.copy h s).2 L) s
      = State.getPc (State.copy h s).1 s
  ∧ State.getLabels
        (State.updatePc (State.addRules (State.copy h s).1 s comment) s L)
        (State.copy h s).2 v
      = State.getLabels (State.copy h s).1 (State.copy h s).2 v
  ∧ State.getPc
        (State.updatePc (State.addRules (State.copy h s).1 s comment) s L)
        (State.copy h s).2
      = State.getPc (State.copy h s).1 (State.copy h s).2
  ∧ State.getWarnings
        (State.error (descend (State.copy h s).1 (State.copy h s).2 n).1
          (descend (State.copy h s).1 (State.copy h s).2 n).2 e) s
      = State.getWarnings h s ++ [e] := by
  obtain ⟨h1, h2, h3, h4⟩ := hwf
  have hr : ¬ (s.rules = h.next) := by omega
  have hp : ¬ (s.pc = h.next + 1) := by omega
  have hr' : ¬ (h.next = s.rules) := by omega
  have hp' : ¬ (h.next + 1 = s.pc) := by omega
  refine ⟨?_, ?_, ?_, ?_, ?_⟩
  · simp [State.getLabels, State.updatePc, State.addRules, State.copy, hr]
  · simp [State.getPc, State.updatePc, State.addRules, State.copy, hp]
  · simp [State.getLabels, State.updatePc, State.addRules, State.copy, hr']
  · simp [State.getPc, State.updatePc, State.addRules, State.copy, hp']
  · have hd := descend_sink n (State.copy h s).1 (State.copy h s).2
    have hsink : (descend (State.copy h s).1 (State.copy h s).2 n).2.sink = s.sink := hd.1
    have hsinkAt : (descend (State.copy h s).1 (State.copy h s).2 n).1.sinkAt
        = h.sinkAt := hd.2
    simp [State.getWarnings, State.error, hsink, hsinkAt]

/-- Witness for C2 at the concrete heap `heap0`, with a two-deep copy chain. -/
theorem c2_witness :
    State.getLabels
        (State.updatePc
          (State.addRules (State.copy heap0 st0).1 (State.copy heap0 st0).2 "b: low.")
          (State.copy heap0 st0).2 {"z"}) st0 "a"
      = State.getLabels (State.copy heap0 st0).1 st0 "a"
  ∧ State.getPc
        (State.updatePc
          (State.addRules (State.copy heap0 st0).1 (State.copy heap0 st0).2 "b: low.")
          (State.copy heap0 st0).2 {"z"}) st0
      = State.getPc (State.copy heap0 st0).1 st0
  ∧ State.getLabels
        (State.updatePc (State.addRules (State.copy heap0 st0).1 st0 "b: low.") st0 {"z"})
        (State.copy heap0 st0).2 "a"
      = State.getLabels (State.copy heap0 st0).1 (State.copy heap0 st0).2 "a"
  ∧ State.getPc
        (State.updatePc (State.addRules (State.copy heap0 st0).1 st0 "b: low.") st0 {"z"})
        (State.copy heap0 st0).2
      = State.getPc (State.copy heap0 st0).1 (State.copy heap0 st0).2
  ∧ State.getWarnings
        (State.error (descend (State.copy heap0 st0).1 (State.copy heap0 st0).2 2).1
          (descend (State.copy heap0 st0).1 (State.copy heap0 st0).2 2).2
          ⟨.explicit, 1, ⟨[], ∅, ∅⟩, "t", none⟩) st0
      = State.getWarnings heap0 st0 ++ [⟨.explicit, 1, ⟨[], ∅, ∅⟩, "t", none⟩] :=
  c2_copy_isolation heap0 st0 (by decide) "b: low." {"z"}
    ⟨.explicit, 1, ⟨[], ∅, ∅⟩, "t", none⟩ 2 "a"

/-! ## Smoke tests mirroring the repository's own test suite -/

example : get_labels (add_rules [] "a: my_label, my_label_2. b: other_label") "a"
    = {"my_label", "my_label_2"} := by decide
example : get_labels (add_rules [] "a*ble: my_label. b: other_label") "acceptable"
    = {"my_label"} := by decide
example : get_labels (add_rules [] "a*ble: my_label. b: other_label") "a" = ∅ := by decide
example : get_labels (add_rules (add_rules [] "a: label. a*: label2.") "*: ().") "a"
    = ∅ := by decide
example : get_labels (add_rules [] "a: (), label. b: ().") "a" = {"label"} := by decide
example : get_labels (add_rules [] "*: a, b, c, d, e.") "foo"
    = {"a", "b", "c", "d", "e"} := by decide
